import Mathlib

/-!
Formal model of `src/compress_video.py`, a video re-compression utility.

Modelling conventions:
- Python `float` arithmetic is modelled exactly over `ℚ` (the script only
  compares size/duration/ratio quantities far from any rounding boundary).
- The external `ffmpeg`/`ffprobe` subprocesses are modelled as oracles for
  exit status, captured stdout text and produced file sizes.
- The filesystem is modelled as a finite tree of named entries.
-/

set_option autoImplicit false

/-! ### Scanning of the ffprobe stdout text

`is_video_compressed` (lines 74-97) applies `re.search` with the two class
patterns (lines 35-36):
  `TAG\:encoder\s*\=.+x265`   and   `duration\=([\d\.\+\-eE]+)`.
The searches are implemented below as concrete scanners over `List Char`
with the exact semantics of the two patterns (unanchored leftmost search;
`.` does not match a newline; `\s` is the six-character whitespace class).
-/

/-- Python regex class `\s`: space, tab, newline, carriage return,
vertical tab, form feed. -/
def isSpaceChar (c : Char) : Bool :=
  c == ' ' || c == '\t' || c == '\n' || c == '\r' || c == '\x0b' || c == '\x0c'

/-- Python regex class `[\d\.\+\-eE]` used by the duration pattern. -/
def isDurChar (c : Char) : Bool :=
  c.isDigit || c == '.' || c == '+' || c == '-' || c == 'e' || c == 'E'

/-- Literal head of the encoder-tag pattern. -/
def tagHead : List Char := "TAG:encoder".toList

/-- Literal tail of the encoder-tag pattern. -/
def x265Lit : List Char := "x265".toList

/-- Literal head of the duration pattern. -/
def durHead : List Char := "duration=".toList

/-- Does some (possibly empty) run of non-newline characters followed by the
literal `x265` start here?  This is the `.*x265` suffix once at least one
`.` character has been consumed. -/
def scanX265 : List Char → Bool
  | [] => false
  | c :: rest => x265Lit.isPrefixOf (c :: rest) || (c != '\n' && scanX265 rest)

/-- The regex fragment `.+x265`: at least one non-newline character, then the
literal `x265`. -/
def dotPlusX265 : List Char → Bool
  | [] => false
  | c :: rest => c != '\n' && scanX265 rest

/-- Does `TAG\:encoder\s*\=.+x265` match starting at the head of `l`?
Since `=` is not a whitespace character, the greedy `\s*` is equivalent to
skipping the whole whitespace run. -/
def matchTagAt (l : List Char) : Bool :=
  if tagHead.isPrefixOf l then
    match (l.drop tagHead.length).dropWhile isSpaceChar with
    | '=' :: rest => dotPlusX265 rest
    | _ => false
  else false

/-- `re.search` of the encoder-tag pattern: does it match at some position? -/
def matchesTag : List Char → Bool
  | [] => false
  | c :: rest => matchTagAt (c :: rest) || matchesTag rest

/-- `re.search` of `duration\=([\d\.\+\-eE]+)`: the captured group of the
leftmost match, i.e. the maximal nonempty run of class characters following
the first `duration=` occurrence that is followed by at least one class
character. -/
def findDuration : List Char → Option (List Char)
  | [] => none
  | c :: rest =>
    if durHead.isPrefixOf (c :: rest) then
      let body := ((c :: rest).drop durHead.length).takeWhile isDurChar
      if body.isEmpty then findDuration rest else some body
    else findDuration rest

/-! ### Python `float()` of the captured duration text

A string drawn from the class `[\d\.\+\-eE]` that `float()` accepts denotes
an exact decimal-scientific rational.  To keep every definition computable
by the kernel (the `Rat` arithmetic operations of the library are
irreducible), a parsed float is represented exactly as a pair
`(m, p) : ℤ × ℤ` denoting the value `m * 10 ^ p`; `pyFloatVal` gives the
denoted rational for use in theorem statements. -/

/-- Value of a digit string, most significant digit first. -/
def digitsVal (ds : List Char) : ℕ :=
  ds.foldl (fun n c => 10 * n + (c.toNat - 48)) 0

/-- The rational value denoted by a parsed float `(m, p)`, namely
`m * 10 ^ p`. -/
def pyFloatVal (f : ℤ × ℤ) : ℚ :=
  (f.1 : ℚ) * (10 : ℚ) ^ f.2

/-- Python `float(s)` for a string drawn from the class `[\d\.\+\-eE]`:
optional sign, then digits with an optional fractional part (at least one
digit overall), then an optional exponent.  The result denotes
`sign * (intpart.fracpart) * 10 ^ exponent` exactly; `none` models a
`ValueError`. -/
def parsePyFloat (l : List Char) : Option (ℤ × ℤ) :=
  let sl : ℤ × List Char :=
    match l with
    | '+' :: r => (1, r)
    | '-' :: r => (-1, r)
    | _ => (1, l)
  let ip := sl.2.takeWhile Char.isDigit
  let l2 := sl.2.dropWhile Char.isDigit
  let fl : Option (List Char) × List Char :=
    match l2 with
    | '.' :: r => (some (r.takeWhile Char.isDigit), r.dropWhile Char.isDigit)
    | _ => (none, l2)
  let fp := fl.1.getD []
  if ip.isEmpty && fp.isEmpty then none
  else
    let m : ℤ := sl.1 * (digitsVal (ip ++ fp) : ℤ)
    match fl.2 with
    | [] => some (m, -(fp.length : ℤ))
    | e :: r =>
      if e == 'e' || e == 'E' then
        let es : ℤ × List Char :=
          match r with
          | '+' :: r2 => (1, r2)
          | '-' :: r2 => (-1, r2)
          | _ => (1, r)
        let ed := es.2.takeWhile Char.isDigit
        let r2 := es.2.dropWhile Char.isDigit
        if ed.isEmpty || !r2.isEmpty then none
        else some (m, es.1 * (digitsVal ed : ℤ) - (fp.length : ℤ))
      else none

/-! ### Classification (`is_video_compressed`, lines 74-97) -/

/-- Python exceptions that the classification path can raise. -/
inductive PyError where
  | fileNotFoundError
  | valueError
  | zeroDivisionError
deriving DecidableEq

/-- Outcome of the `subprocess.run` call on ffprobe (line 82):
`unavailable` models the `FileNotFoundError` that `subprocess.run` raises
when the executable cannot be found; `ran` carries the process exit status
and the captured stdout text. -/
inductive ProbeResult where
  | unavailable
  | ran (returncode : ℤ) (stdout : String)

/-- `Mb = 1024**2` (lines 93 and 158). -/
def Mb : ℕ := 1024 ^ 2

/-- The comparison `inpsz / duration < 0.3 * Mb` of line 94, computed
exactly over the integers for a duration `m * 10 ^ p` with `m ≠ 0`:
the two sides are cross-multiplied by the positive quantity
`10 * 10 ^ |p|` (a negative duration makes the left side negative, hence
below the positive threshold).  `densityLt_iff` proves this equal to the
rational comparison. -/
def densityLt (inpsz : ℕ) (m p : ℤ) : Bool :=
  if m < 0 then true
  else if 0 ≤ p then decide ((10 * inpsz : ℤ) < 3 * (Mb : ℤ) * m * 10 ^ p.toNat)
  else decide ((10 * inpsz : ℤ) * 10 ^ (-p).toNat < 3 * (Mb : ℤ) * m)

/-- Pure core of `is_video_compressed` (lines 85-97), a function of the
captured ffprobe stdout text and the file size `getsize(filepath)`:
returns true when the encoder-tag pattern matches, otherwise when a
duration is found and `inpsz / duration < 0.3 * Mb`; a malformed duration
group raises `ValueError` in `float()`, a zero duration raises
`ZeroDivisionError` in the division. -/
def is_video_compressed (output : String) (inpsz : ℕ) : Except PyError Bool :=
  if matchesTag output.toList then Except.ok true
  else
    match findDuration output.toList with
    | none => Except.ok false
    | some g =>
      match parsePyFloat g with
      | none => Except.error PyError.valueError
      | some f =>
        if f.1 = 0 then Except.error PyError.zeroDivisionError
        else Except.ok (densityLt inpsz f.1 f.2)

/-- `is_video_compressed` including the ffprobe invocation (lines 75-83):
if the probe executable is unavailable, `subprocess.run` raises
`FileNotFoundError` and, there being no `try`/`except` in the script, the
exception propagates; otherwise the exit status is never inspected and
only the captured stdout is scanned. -/
def is_video_compressed_probe (pr : ProbeResult) (inpsz : ℕ) : Except PyError Bool :=
  match pr with
  | ProbeResult.unavailable => Except.error PyError.fileNotFoundError
  | ProbeResult.ran _ out => is_video_compressed out inpsz

/-! ### Filesystem model and discovery (`find_files`, lines 18-26)

A directory snapshot is a finite tree of named entries; a path is the list
of entry names from the scan root.  `listdir` order is the entry-list
order. -/

/-- A filesystem node: a regular file or a directory with named entries. -/
inductive FSTree where
  | file : FSTree
  | dir : List (String × FSTree) → FSTree

/-- A filesystem path, as the list of name components below the root. -/
abbrev FsPath := List String

/-- `CompressVideoFiles.__extensions` (line 37). -/
def extensions : List String := [".mp4", ".avi", ".mpeg", ".mpg", ".mov"]

/-- `os.path.splitext(name)[1]` for a single path component: the suffix
from the last dot, unless every character before that dot is itself a dot
(then there is no extension). -/
def extChars (cs : List Char) : List Char :=
  match cs.reverse.findIdx? (fun c => c == '.') with
  | none => []
  | some k =>
    let i := cs.length - 1 - k
    if (cs.take i).all (fun c => c == '.') then [] else cs.drop i

/-- The extension test `splitext(path)[1] in self.__extensions` (line 100):
`splitext` only looks behind the last separator, so on a component path it
is the extension of the last component, compared case-sensitively. -/
def hasAllowedExt (p : FsPath) : Bool :=
  match p.getLast? with
  | none => false
  | some n => extensions.contains (String.mk (extChars n.toList))

/-- `os.path.isfile` on a node of the modelled tree. -/
def isFileNode : FSTree → Bool
  | FSTree.file => true
  | FSTree.dir _ => false

/-- `is_suitable_for_compression` (lines 99-102): allowed extension, a
regular file, and not classified as already compressed.  The classifier
oracle `c` gives the boolean outcome of `is_video_compressed` at each
path. -/
def is_suitable_for_compression (c : FsPath → Bool) (p : FsPath) (t : FSTree) : Bool :=
  hasAllowedExt p && isFileNode t && !(c p)

/-- The recursive descent of `find_files` (lines 21-25): for each entry in
`listdir` order, descend into subdirectories.  The inlined first summand of
the directory case is the `listdir`-filter line (line 20) of the recursive
`find_files` call on that subdirectory. -/
def find_sub (good : FsPath → FSTree → Bool) : FsPath → List (String × FSTree) → List FsPath
  | _, [] => []
  | base, (_, FSTree.file) :: rest => find_sub good base rest
  | base, (n, FSTree.dir es2) :: rest =>
    ((es2.filter (fun e => good (base ++ [n] ++ [e.1]) e.2)).map (fun e => base ++ [n] ++ [e.1])
        ++ find_sub good (base ++ [n]) es2)
      ++ find_sub good base rest

/-- `find_files(basedir, is_good)` (lines 18-26): the entries of `basedir`
satisfying `is_good` (line 20), followed by the recursive results for each
subdirectory in `listdir` order (lines 21-25). -/
def find_files (good : FsPath → FSTree → Bool) (base : FsPath)
    (entries : List (String × FSTree)) : List FsPath :=
  (entries.filter (fun e => good (base ++ [e.1]) e.2)).map (fun e => base ++ [e.1])
    ++ find_sub good base entries

/-- `find_all_non_compressed_video` (lines 104-107): if the root path is a
regular file, return it alone; otherwise walk the tree with
`is_suitable_for_compression`. -/
def find_all_non_compressed_video (root : FsPath) (t : FSTree) (c : FsPath → Bool) : List FsPath :=
  match t with
  | FSTree.file => [root]
  | FSTree.dir es => find_files (is_suitable_for_compression c) root es

/-- Well-formedness of a directory snapshot: within each directory the
entry names are distinct, as `listdir` guarantees. -/
def wfEntries : List (String × FSTree) → Bool
  | [] => true
  | (n, FSTree.file) :: rest => !(decide (n ∈ rest.map Prod.fst)) && wfEntries rest
  | (n, FSTree.dir es2) :: rest =>
    !(decide (n ∈ rest.map Prod.fst)) && wfEntries es2 && wfEntries rest

/-- The specification-side view of the walk: `Finds es q t` holds when
descending from a directory with entries `es` along the (nonempty) relative
path `q` reaches the node `t`. -/
inductive Finds : List (String × FSTree) → List String → FSTree → Prop where
  | here {es : List (String × FSTree)} {n : String} {t : FSTree} :
      (n, t) ∈ es → Finds es [n] t
  | deeper {es es2 : List (String × FSTree)} {n : String} {q : List String} {t : FSTree} :
      (n, FSTree.dir es2) ∈ es → Finds es2 q t → Finds es (n :: q) t

/-! ### Transcode-and-replace (`compress_video`, lines 134-169)

The ffmpeg invocations are modelled by a per-file oracle (`FileJob`):
which codec argument lists exit with status 0, the input file size, and
the size of the output each codec would produce.  The session state is the
`self.codec` field (line 53): `none` until some codec succeeds. -/

/-- A codec option: the encoder argument list inserted into the ffmpeg
command line. -/
abbrev Codec := List String

/-- `CompressVideoFiles.__codecs` (lines 30-34), in priority order. -/
def codecs : List Codec :=
  [["-c:v", "hevc_nvenc"],
   ["-c:v", "libx265", "-crf", "25"],
   ["-c:v", "hevc", "-crf", "25"]]

/-- Oracle for one input file: `succeeds k` is whether
`run_ffmpeg_compress` with codec `k` returns exit status 0, `inpsz` is
`getsize(inp)`, and `outpsz k` is `getsize(outp)` after a successful run
with codec `k`. -/
structure FileJob where
  succeeds : Codec → Bool
  inpsz : ℕ
  outpsz : Codec → ℕ

/-- Per-file outcome of `compress_video`: `encodeFailed` is the early
`return False` of lines 150-153 (error printed, no file touched);
`rejected` is the `return False` of lines 159-163 (temporary output
removed, original untouched); `accepted` is the `shutil.move` path of
lines 165-169 (original replaced). -/
inductive FileResult where
  | encodeFailed
  | rejected
  | accepted
deriving DecidableEq

/-- What one `compress_video` call did: the updated session codec, the
codec options invoked in order, and the outcome. -/
structure StepOut where
  newCodec : Option Codec
  invoked : List Codec
  result : FileResult
deriving DecidableEq

/-- The fallback loop of lines 141-146: try each codec in order, stopping
at the first success; returns the invoked options in order and the first
successful one, if any. -/
def tryCodecs : List Codec → (Codec → Bool) → List Codec × Option Codec
  | [], _ => ([], none)
  | k :: rest, ok =>
    if ok k then ([k], some k)
    else
      let r := tryCodecs rest ok
      (k :: r.1, r.2)

/-- The size comparison of line 159, `outpsz / inpsz > 0.9 or
inpsz - outpsz < 2 * Mb`, computed exactly over the integers: for
`inpsz > 0`, `outpsz / inpsz > 0.9` iff `9 * inpsz < 10 * outpsz` (the
bridge is proved in the accept/reject theorem). -/
def compression_rejected (inpsz outpsz : ℕ) : Bool :=
  decide (9 * inpsz < 10 * outpsz) || decide ((inpsz : ℤ) - (outpsz : ℤ) < 2 * (Mb : ℤ))

/-- `compress_video(inp, outp)` (lines 134-169) for one file, as a
function of the session codec state and the file's oracle.  With no codec
locked in, the options are tried in order and the first success is stored
in `self.codec` (lines 140-146); with a locked-in codec only that codec is
run (lines 147-148).  A nonzero status at line 150 reports the error and
returns without touching any file; otherwise the size test decides between
discarding the output (lines 159-163) and replacing the original
(line 165). -/
def compress_video (s : Option Codec) (j : FileJob) : StepOut :=
  match s with
  | none =>
    let r := tryCodecs codecs j.succeeds
    match r.2 with
    | none => ⟨none, r.1, FileResult.encodeFailed⟩
    | some k =>
      ⟨some k, r.1,
        if compression_rejected j.inpsz (j.outpsz k) then FileResult.rejected
        else FileResult.accepted⟩
  | some k =>
    if j.succeeds k then
      ⟨some k, [k],
        if compression_rejected j.inpsz (j.outpsz k) then FileResult.rejected
        else FileResult.accepted⟩
    else ⟨some k, [k], FileResult.encodeFailed⟩

/-- The per-file loop of `run` (lines 68-70): process the files in order,
threading the session codec state. -/
def runSession (s : Option Codec) : List FileJob → List StepOut × Option Codec
  | [] => ([], s)
  | j :: rest =>
    let out := compress_video s j
    let r := runSession out.newCodec rest
    (out :: r.1, r.2)

/-! ### Observable event order of `run` (lines 55-72)

`run` first builds the candidate list (line 60) — during which
`is_video_compressed` probes every extension-matching file — and only then
enters the per-file encode loop (lines 68-70).  Events are indexed by the
file's position in the candidate list. -/

/-- Observable per-file events: the classification probe of a file during
discovery, the start of its encode, and its accept/reject decision. -/
inductive RunEvent where
  | classified (i : ℕ)
  | encoded (i : ℕ)
  | decided (i : ℕ)
deriving DecidableEq

/-- The file index an event belongs to. -/
def eventIndex : RunEvent → ℕ
  | RunEvent.classified i => i
  | RunEvent.encoded i => i
  | RunEvent.decided i => i

/-- Events of the encode loop (lines 68-70) starting at file index `i`
with session state `s`: each file is encoded and, unless the encode
failed, its accept/reject decision follows, before the next file starts. -/
def loopEvents (i : ℕ) (s : Option Codec) : List FileJob → List RunEvent
  | [] => []
  | j :: rest =>
    let out := compress_video s j
    (RunEvent.encoded i ::
        (match out.result with
          | FileResult.encodeFailed => []
          | _ => [RunEvent.decided i]))
      ++ loopEvents (i + 1) out.newCodec rest

/-- The full observable event order of `run` on a candidate list: every
candidate is classified during discovery (line 60), then the encode loop
runs (lines 68-70) with the initial session state `self.codec = None`
(line 53). -/
def runEvents (jobs : List FileJob) : List RunEvent :=
  (List.range jobs.length).map RunEvent.classified ++ loopEvents 0 none jobs

/-! ### Helper lemmas -/

/-- The fallback loop returns some codec only if that codec succeeded. -/
theorem tryCodecs_mem_ok (ok : Codec → Bool) (k : Codec) :
    ∀ L : List Codec, (tryCodecs L ok).2 = some k → ok k = true := by
  intro L
  induction L with
  | nil => intro h; simp [tryCodecs] at h
  | cons a rest ih =>
    intro h
    simp only [tryCodecs] at h
    by_cases ha : ok a = true
    · rw [if_pos ha] at h
      simp only [Option.some.injEq] at h
      exact h ▸ ha
    · rw [if_neg ha] at h
      exact ih h

/-- If every option fails, the fallback loop tries all of them and locks
nothing in. -/
theorem tryCodecs_all_fail (ok : Codec → Bool) :
    ∀ L : List Codec, (∀ k ∈ L, ok k = false) → tryCodecs L ok = (L, none) := by
  intro L
  induction L with
  | nil => intro _; rfl
  | cons a rest ih =>
    intro h
    have ha : ok a = false := h a (List.mem_cons_self a rest)
    simp [tryCodecs, ha, ih (fun k hk => h k (List.mem_cons_of_mem a hk))]

/-- Characterization of the fallback loop: it invokes the maximal failing
prefix plus the first success, and locks in the first success. -/
theorem tryCodecs_spec (ok : Codec → Bool) :
    ∀ L : List Codec,
      tryCodecs L ok =
        (L.takeWhile (fun k => !ok k) ++ (L.dropWhile (fun k => !ok k)).take 1,
          (L.dropWhile (fun k => !ok k)).head?) := by
  intro L
  induction L with
  | nil => rfl
  | cons a rest ih =>
    by_cases ha : ok a = true
    · simp [tryCodecs, List.takeWhile_cons, List.dropWhile_cons, ha]
    · have ha' : ok a = false := by simpa using ha
      simp [tryCodecs, List.takeWhile_cons, List.dropWhile_cons, ha', ih]

/-- With a locked-in codec, every step invokes exactly that codec and
leaves the lock unchanged, whether or not the encode succeeds. -/
theorem runSession_locked (k : Codec) :
    ∀ jobs : List FileJob,
      (∀ o ∈ (runSession (some k) jobs).1, o.invoked = [k] ∧ o.newCodec = some k) ∧
        (runSession (some k) jobs).2 = some k := by
  intro jobs
  induction jobs with
  | nil => simp [runSession]
  | cons j rest ih =>
    have h1 : (compress_video (some k) j).invoked = [k] ∧
        (compress_video (some k) j).newCodec = some k := by
      by_cases hs : j.succeeds k <;> simp [compress_video, hs]
    refine ⟨?_, ?_⟩
    · intro o ho
      simp only [runSession] at ho
      rw [h1.2] at ho
      rcases List.mem_cons.mp ho with rfl | ho'
      · exact h1
      · exact ih.1 o ho'
    · simp only [runSession]
      rw [h1.2]
      exact ih.2

/-- Every event of the encode loop starting at index `i` has index at
least `i`. -/
theorem loopEvents_index_le (jobs : List FileJob) :
    ∀ (i : ℕ) (s : Option Codec) (e : RunEvent),
      e ∈ loopEvents i s jobs → i ≤ eventIndex e := by
  induction jobs with
  | nil => intro i s e he; simp [loopEvents] at he
  | cons j rest ih =>
    intro i s e he
    rcases hres : (compress_video s j).result with _ | _ | _ <;>
      simp [loopEvents, hres] at he <;>
      rcases he with he | he
    · exact he ▸ Nat.le_refl _
    · exact Nat.le_of_succ_le (ih (i + 1) _ e he)
    · exact he ▸ Nat.le_refl _
    · rcases he with he | he
      · exact he ▸ Nat.le_refl _
      · exact Nat.le_of_succ_le (ih (i + 1) _ e he)
    · exact he ▸ Nat.le_refl _
    · rcases he with he | he
      · exact he ▸ Nat.le_refl _
      · exact Nat.le_of_succ_le (ih (i + 1) _ e he)

/-- The encode loop's events are ordered by file index: each file's
events all precede the next file's. -/
theorem loopEvents_pairwise (jobs : List FileJob) :
    ∀ (i : ℕ) (s : Option Codec),
      (loopEvents i s jobs).Pairwise (fun a b => eventIndex a ≤ eventIndex b) := by
  induction jobs with
  | nil => intro i s; simp [loopEvents]
  | cons j rest ih =>
    intro i s
    have tail_le : ∀ e ∈ loopEvents (i + 1) (compress_video s j).newCodec rest,
        i ≤ eventIndex e :=
      fun e he => Nat.le_of_succ_le (loopEvents_index_le rest (i + 1) _ e he)
    rcases hres : (compress_video s j).result with _ | _ | _ <;>
      simp only [loopEvents, hres] <;>
      refine List.Pairwise.cons ?_ ?_ <;>
      try simp only [List.nil_append, List.cons_append]
    · intro e he; exact tail_le e he
    · exact ih (i + 1) _
    · intro e he
      rcases List.mem_cons.mp he with rfl | he'
      · simp [eventIndex]
      · exact tail_le e he'
    · refine List.Pairwise.cons ?_ (ih (i + 1) _)
      intro e he; exact tail_le e he
    · intro e he
      rcases List.mem_cons.mp he with rfl | he'
      · simp [eventIndex]
      · exact tail_le e he'
    · refine List.Pairwise.cons ?_ (ih (i + 1) _)
      intro e he; exact tail_le e he

/-- For a positive duration `m * 10 ^ p`, the integer comparison
`densityLt` agrees with the source's rational comparison
`inpsz / duration < 0.3 * Mb`. -/
theorem densityLt_iff (sz : ℕ) (m p : ℤ) (hm : 0 < m) :
    densityLt sz m p = true ↔ (sz : ℚ) / pyFloatVal (m, p) < 3 / 10 * (Mb : ℚ) := by
  have hm' : ¬ m < 0 := not_lt.mpr hm.le
  have hmQ : (0 : ℚ) < (m : ℚ) := by exact_mod_cast hm
  have hd : (0 : ℚ) < (m : ℚ) * (10 : ℚ) ^ p :=
    mul_pos hmQ (zpow_pos (by norm_num) p)
  have h10 : (0 : ℚ) < 10 := by norm_num
  rw [show pyFloatVal (m, p) = (m : ℚ) * (10 : ℚ) ^ p from rfl]
  rw [densityLt, if_neg hm']
  by_cases hp : 0 ≤ p
  · rw [if_pos hp, decide_eq_true_eq]
    have hzp : (10 : ℚ) ^ p = (10 : ℚ) ^ p.toNat := by
      rw [← zpow_natCast (10 : ℚ) p.toNat, Int.toNat_of_nonneg hp]
    rw [div_lt_iff₀ hd, ← mul_lt_mul_left h10]
    rw [show (10 : ℚ) * ((3 : ℚ) / 10 * (Mb : ℚ) * ((m : ℚ) * (10 : ℚ) ^ p)) =
          ((3 * (Mb : ℤ) * m * 10 ^ p.toNat : ℤ) : ℚ) from by rw [hzp]; push_cast; ring]
    rw [show (10 : ℚ) * (sz : ℚ) = ((10 * sz : ℤ) : ℚ) from by push_cast; ring]
    exact Int.cast_lt.symm
  · rw [if_neg hp, decide_eq_true_eq]
    have hk : (10 : ℚ) ^ p = ((10 : ℚ) ^ (-p).toNat)⁻¹ := by
      rw [← zpow_natCast (10 : ℚ) (-p).toNat, Int.toNat_of_nonneg (by omega : (0 : ℤ) ≤ -p),
        ← zpow_neg, neg_neg]
    have hkpos : (0 : ℚ) < (10 : ℚ) ^ (-p).toNat := by positivity
    rw [div_lt_iff₀ hd, ← mul_lt_mul_left h10, ← mul_lt_mul_right hkpos]
    rw [show (10 : ℚ) * ((3 : ℚ) / 10 * (Mb : ℚ) * ((m : ℚ) * (10 : ℚ) ^ p)) *
          (10 : ℚ) ^ (-p).toNat = ((3 * (Mb : ℤ) * m : ℤ) : ℚ) from by
      rw [hk]; push_cast; field_simp; ring]
    rw [show (10 : ℚ) * (sz : ℚ) * (10 : ℚ) ^ (-p).toNat =
          ((10 * sz * 10 ^ (-p).toNat : ℤ) : ℚ) from by push_cast; ring]
    exact Int.cast_lt.symm

/-! ### Claims -/

/-- C1 (amended): the accept/reject decision after a successful encode is a
pure function of input size `i` and output size `o`: the result is rejected
iff `o / i > 0.9` (strictly) or `i - o < 2 MiB`; a ratio of exactly `0.9`
does not by itself reject — such a result is accepted whenever the absolute
saving is at least 2 MiB. -/
theorem reject_decision_exact (i o : ℕ) (h : 0 < i) :
    compression_rejected i o = true ↔
      ((o : ℚ) / (i : ℚ) > 9 / 10 ∨ (i : ℤ) - (o : ℤ) < 2 * (Mb : ℤ)) := by
  have hi : (0 : ℚ) < (i : ℚ) := by exact_mod_cast h
  have key : ((9 : ℚ) / 10 < (o : ℚ) / (i : ℚ)) ↔ 9 * i < 10 * o := by
    rw [div_lt_div_iff₀ (by norm_num) hi]
    rw [show ((o : ℚ) * 10 = ((10 * o : ℕ) : ℚ)) from by push_cast; ring,
      show ((9 : ℚ) * (i : ℚ) = ((9 * i : ℕ) : ℚ)) from by push_cast; ring]
    exact Nat.cast_lt
  simp only [compression_rejected, Bool.or_eq_true, decide_eq_true_eq, gt_iff_lt, key]

/-- C1 witness: at `i = 100 MiB`, `o = 50 MiB` the hypothesis `0 < i` holds
and the characterization applies. -/
theorem reject_decision_exact_witness :
    0 < 100 * Mb ∧
      (compression_rejected (100 * Mb) (50 * Mb) = true ↔
        (((50 * Mb : ℕ) : ℚ) / ((100 * Mb : ℕ) : ℚ) > 9 / 10 ∨
          ((100 * Mb : ℕ) : ℤ) - ((50 * Mb : ℕ) : ℤ) < 2 * (Mb : ℤ))) :=
  ⟨by decide, reject_decision_exact (100 * Mb) (50 * Mb) (by decide)⟩

/-- C1 counterexample: at input size 20 MiB and output size 18 MiB the
ratio is exactly 0.9 and the saving is exactly 2 MiB, yet the encode
result is accepted (the original is replaced), contradicting the claim
that a ratio of exactly 0.9 is rejected. -/
theorem ratio_exactly_09_accepted :
    ((18 * Mb : ℕ) : ℚ) / ((20 * Mb : ℕ) : ℚ) = 9 / 10 ∧
      compression_rejected (20 * Mb) (18 * Mb) = false ∧
      (compress_video (some ["-c:v", "hevc_nvenc"])
          ⟨fun _ => true, 20 * Mb, fun _ => 18 * Mb⟩).result = FileResult.accepted := by
  refine ⟨?_, by decide, rfl⟩
  rw [Mb]
  norm_num

/-- C2: once a codec option succeeds for some file it becomes the
session's locked-in codec: it must indeed have succeeded, the session
continues with it, every subsequent file invokes exactly that option
(never retrying the alternatives, even when it fails on a later file),
and the lock is never revisited. -/
theorem codec_lock_in (j : FileJob) (k : Codec) (jobs : List FileJob)
    (h : (compress_video none j).newCodec = some k) :
    j.succeeds k = true ∧
    (runSession none (j :: jobs)).1 = compress_video none j :: (runSession (some k) jobs).1 ∧
    (∀ o ∈ (runSession (some k) jobs).1, o.invoked = [k] ∧ o.newCodec = some k) ∧
    (runSession (some k) jobs).2 = some k := by
  have hok : j.succeeds k = true := by
    rcases hr : (tryCodecs codecs j.succeeds).2 with _ | k'
    · simp [compress_video, hr] at h
    · simp [compress_video, hr] at h
      exact h ▸ tryCodecs_mem_ok j.succeeds k' codecs hr
  refine ⟨hok, ?_, (runSession_locked k jobs).1, (runSession_locked k jobs).2⟩
  simp only [runSession]
  rw [h]

/-- C2 witness: a first file on which every option succeeds locks in the
head codec; a second file on which every option fails still invokes only
the locked-in codec. -/
theorem codec_lock_in_witness :
    (compress_video none ⟨fun _ => true, 0, fun _ => 0⟩).newCodec =
        some ["-c:v", "hevc_nvenc"] ∧
      ((⟨fun _ => true, 0, fun _ => 0⟩ : FileJob).succeeds ["-c:v", "hevc_nvenc"] = true ∧
        (runSession none
            (⟨fun _ => true, 0, fun _ => 0⟩ :: [⟨fun _ => false, 0, fun _ => 0⟩])).1 =
          compress_video none ⟨fun _ => true, 0, fun _ => 0⟩ ::
            (runSession (some ["-c:v", "hevc_nvenc"]) [⟨fun _ => false, 0, fun _ => 0⟩]).1 ∧
        (∀ o ∈ (runSession (some ["-c:v", "hevc_nvenc"]) [⟨fun _ => false, 0, fun _ => 0⟩]).1,
          o.invoked = [["-c:v", "hevc_nvenc"]] ∧ o.newCodec = some ["-c:v", "hevc_nvenc"]) ∧
        (runSession (some ["-c:v", "hevc_nvenc"]) [⟨fun _ => false, 0, fun _ => 0⟩]).2 =
          some ["-c:v", "hevc_nvenc"]) :=
  ⟨rfl, codec_lock_in ⟨fun _ => true, 0, fun _ => 0⟩ ["-c:v", "hevc_nvenc"]
    [⟨fun _ => false, 0, fun _ => 0⟩] rfl⟩

/-- C3 (amended): when the probing tool runs but exits with an error, the
exit status is ignored: if the captured stdout matches neither heuristic
the file is classified "not yet compressed" with no error raised.  When
the probing tool is unavailable, however, the `FileNotFoundError` raised
by `subprocess.run` propagates (see the counterexample). -/
theorem probe_error_exit_candidate (rc : ℤ) (out : String) (sz : ℕ)
    (_h0 : rc ≠ 0) (h1 : matchesTag out.toList = false)
    (h2 : findDuration out.toList = none) :
    is_video_compressed_probe (ProbeResult.ran rc out) sz = Except.ok false := by
  simp only [String.toList] at h1 h2
  simp [is_video_compressed_probe, is_video_compressed, h1, h2]

/-- C3 witness: a probe that exits with status 1 and empty stdout yields
the "not yet compressed" classification. -/
theorem probe_error_exit_candidate_witness :
    (1 : ℤ) ≠ 0 ∧ matchesTag "".toList = false ∧ findDuration "".toList = none ∧
      is_video_compressed_probe (ProbeResult.ran 1 "") 5 = Except.ok false :=
  ⟨by decide, by decide, by decide,
    probe_error_exit_candidate 1 "" 5 (by decide) (by decide) (by decide)⟩

/-- C3 counterexample: when the probing tool is unavailable the
classification does not return "not yet compressed": the
`FileNotFoundError` of `subprocess.run` propagates instead, so an error is
raised, contradicting the claim. -/
theorem probe_unavailable_raises :
    is_video_compressed_probe ProbeResult.unavailable (1 * Mb) =
        Except.error PyError.fileNotFoundError ∧
      is_video_compressed_probe ProbeResult.unavailable (1 * Mb) ≠ Except.ok false :=
  ⟨rfl, fun h => Except.noConfusion h⟩

/-- C5: for metadata whose text contains no encoder tag but a duration
`m * 10 ^ p > 0`, classification returns the density comparison, which
agrees exactly with `size / duration < 0.3 MiB/s`: below the threshold the
file is "already compressed", at or above it a candidate. -/
theorem density_heuristic (out : String) (sz : ℕ) (g : List Char) (f : ℤ × ℤ)
    (hTag : matchesTag out.toList = false)
    (hDur : findDuration out.toList = some g)
    (hParse : parsePyFloat g = some f)
    (hPos : 0 < f.1) :
    is_video_compressed out sz = Except.ok (densityLt sz f.1 f.2) ∧
      (densityLt sz f.1 f.2 = true ↔ (sz : ℚ) / pyFloatVal f < 3 / 10 * (Mb : ℚ)) := by
  constructor
  · simp only [String.toList] at hTag hDur
    simp [is_video_compressed, hTag, hDur, hParse, hPos.ne']
  · have := densityLt_iff sz f.1 f.2 hPos
    rwa [show ((f.1, f.2) : ℤ × ℤ) = f from rfl] at this

/-- C5 witness: stdout `duration=100` parses to the duration `100`; at
file size 1 MiB the density is 0.01 MiB/s, below the threshold. -/
theorem density_heuristic_witness :
    matchesTag "duration=100".toList = false ∧
      findDuration "duration=100".toList = some ['1', '0', '0'] ∧
      parsePyFloat ['1', '0', '0'] = some (100, 0) ∧
      (0 : ℤ) < 100 ∧
      (is_video_compressed "duration=100" (1 * Mb) =
          Except.ok (densityLt (1 * Mb) 100 0) ∧
        (densityLt (1 * Mb) 100 0 = true ↔
          ((1 * Mb : ℕ) : ℚ) / pyFloatVal (100, 0) < 3 / 10 * (Mb : ℚ))) :=
  ⟨by decide, by decide, by decide, by decide,
    density_heuristic "duration=100" (1 * Mb) ['1', '0', '0'] (100, 0)
      (by decide) (by decide) (by decide) (by decide)⟩

/-- C6: classification is a pure function of the metadata text and the
file size (hence deterministic across runs), and whenever the metadata
text contains the encoder-tag pattern it returns "already compressed"
regardless of duration and size. -/
theorem encoder_tag_dominates (out : String) (sz : ℕ)
    (h : matchesTag out.toList = true) :
    is_video_compressed out sz = is_video_compressed out sz ∧
      is_video_compressed out sz = Except.ok true := by
  refine ⟨rfl, ?_⟩
  simp only [String.toList] at h
  simp [is_video_compressed, h]

/-- C6 witness: a typical x265 encoder tag line matches the pattern and
classifies as already compressed at an arbitrary size. -/
theorem encoder_tag_dominates_witness :
    matchesTag "TAG:encoder=Lavc58 libx265".toList = true ∧
      (is_video_compressed "TAG:encoder=Lavc58 libx265" (500 * Mb) =
          is_video_compressed "TAG:encoder=Lavc58 libx265" (500 * Mb) ∧
        is_video_compressed "TAG:encoder=Lavc58 libx265" (500 * Mb) = Except.ok true) :=
  ⟨by decide, encoder_tag_dominates "TAG:encoder=Lavc58 libx265" (500 * Mb) (by decide)⟩

/-- C7: when the scan root is itself a regular file, discovery returns the
singleton list containing exactly that path, whatever its name or
extension and whatever the classifier would say: the extension filter and
the recursion are bypassed. -/
theorem root_file_singleton (root : FsPath) (c : FsPath → Bool) :
    find_all_non_compressed_video root FSTree.file c = [root] := rfl

/-- C8: if every codec option fails for a file while no codec is locked
in, the step reports an encode failure, modifies no file, locks nothing
in, and — the state still being `none` — any subsequent file again tries
the options from the start of the priority list. -/
theorem all_codecs_fail_no_lock (j : FileJob) (h : ∀ k ∈ codecs, j.succeeds k = false) :
    compress_video none j = ⟨none, codecs, FileResult.encodeFailed⟩ ∧
      ∀ j2 : FileJob, (compress_video none j2).invoked =
        codecs.takeWhile (fun k => !j2.succeeds k) ++
          (codecs.dropWhile (fun k => !j2.succeeds k)).take 1 := by
  constructor
  · simp [compress_video, tryCodecs_all_fail j.succeeds codecs h]
  · intro j2
    have hinv : (compress_video none j2).invoked = (tryCodecs codecs j2.succeeds).1 := by
      rcases hr : (tryCodecs codecs j2.succeeds).2 with _ | k <;> simp [compress_video, hr]
    rw [hinv, tryCodecs_spec j2.succeeds codecs]

/-- C8 witness: a job on which every codec fails. -/
theorem all_codecs_fail_no_lock_witness :
    (∀ k ∈ codecs, (⟨fun _ => false, 0, fun _ => 0⟩ : FileJob).succeeds k = false) ∧
      (compress_video none ⟨fun _ => false, 0, fun _ => 0⟩ =
          ⟨none, codecs, FileResult.encodeFailed⟩ ∧
        ∀ j2 : FileJob, (compress_video none j2).invoked =
          codecs.takeWhile (fun k => !j2.succeeds k) ++
            (codecs.dropWhile (fun k => !j2.succeeds k)).take 1) :=
  ⟨fun _ _ => rfl,
    all_codecs_fail_no_lock ⟨fun _ => false, 0, fun _ => 0⟩ (fun _ _ => rfl)⟩

/-- C9 (amended): every candidate file is classified during discovery,
before any encoding begins; thereafter the encode loop processes the files
strictly one at a time in order — each file's encode and accept/reject
events complete before the next file's begin. -/
theorem pipeline_event_order (jobs : List FileJob) :
    runEvents jobs =
        (List.range jobs.length).map RunEvent.classified ++ loopEvents 0 none jobs ∧
      (loopEvents 0 none jobs).Pairwise (fun a b => eventIndex a ≤ eventIndex b) :=
  ⟨rfl, loopEvents_pairwise jobs 0 none⟩

/-- C9 counterexample: with two candidate files, the second file's
classification event precedes the first file's encode event, so the trace
is not ordered by file — classification is not interleaved per file as the
claim states. -/
theorem classification_batched_counterexample :
    ¬ (runEvents [⟨fun _ => true, 20 * Mb, fun _ => 10 * Mb⟩,
          ⟨fun _ => true, 20 * Mb, fun _ => 10 * Mb⟩]).Pairwise
        (fun a b => eventIndex a ≤ eventIndex b) := by
  intro h
  have htr : runEvents [⟨fun _ => true, 20 * Mb, fun _ => 10 * Mb⟩,
      ⟨fun _ => true, 20 * Mb, fun _ => 10 * Mb⟩] =
      [RunEvent.classified 0, RunEvent.classified 1, RunEvent.encoded 0,
        RunEvent.decided 0, RunEvent.encoded 1, RunEvent.decided 1] := rfl
  rw [htr] at h
  have h2 := (List.pairwise_cons.mp (List.pairwise_cons.mp h).2).1
  have := h2 (RunEvent.encoded 0) (by simp)
  simp [eventIndex] at this

/-- C10: when the scan root is itself a regular file it is returned as a
candidate without the classification ever being consulted: even a
classifier that marks the root as already compressed (making it fail
`is_suitable_for_compression`) does not prevent it from being returned. -/
theorem root_file_bypasses_classification (root : FsPath) (c : FsPath → Bool)
    (h : c root = true) :
    find_all_non_compressed_video root FSTree.file c = [root] ∧
      is_suitable_for_compression c root FSTree.file = false := by
  refine ⟨rfl, ?_⟩
  simp [is_suitable_for_compression, h]

/-- C10 witness: a root file with an allowed extension that the classifier
marks as already compressed is still returned. -/
theorem root_file_bypasses_classification_witness :
    (fun _ : FsPath => true) ["a.mp4"] = true ∧
      (find_all_non_compressed_video ["a.mp4"] FSTree.file (fun _ => true) = [["a.mp4"]] ∧
        is_suitable_for_compression (fun _ => true) ["a.mp4"] FSTree.file = false) :=
  ⟨rfl, root_file_bypasses_classification ["a.mp4"] (fun _ => true) rfl⟩

/-! ### Discovery characterization (claim C4) -/

/-- Inversion for `Finds`. -/
theorem finds_cases {es : List (String × FSTree)} {q : List String} {t : FSTree}
    (h : Finds es q t) :
    (∃ n, q = [n] ∧ (n, t) ∈ es) ∨
      (∃ n es2 q', q = n :: q' ∧ (n, FSTree.dir es2) ∈ es ∧ Finds es2 q' t) := by
  cases h with
  | here hm => exact Or.inl ⟨_, rfl, hm⟩
  | deeper hm hf => exact Or.inr ⟨_, _, _, rfl, hm, hf⟩

/-- A found path is nonempty and starts with the name of an entry. -/
theorem finds_head_name {es : List (String × FSTree)} {q : List String} {t : FSTree}
    (h : Finds es q t) : ∃ n q', q = n :: q' ∧ n ∈ es.map Prod.fst := by
  cases h with
  | here hm => exact ⟨_, [], rfl, List.mem_map.mpr ⟨_, hm, rfl⟩⟩
  | deeper hm hf => exact ⟨_, _, rfl, List.mem_map.mpr ⟨_, hm, rfl⟩⟩

/-- Membership in the recursive-descent part of the walk: exactly the good
nodes found at depth at least two below `base`, through some directory
entry. -/
theorem mem_find_sub (good : FsPath → FSTree → Bool) (base : FsPath)
    (es : List (String × FSTree)) (p : FsPath) :
    p ∈ find_sub good base es ↔
      ∃ n es2 q t, (n, FSTree.dir es2) ∈ es ∧ Finds es2 q t ∧
        p = base ++ n :: q ∧ good p t = true := by
  rcases es with _ | ⟨⟨a, t⟩, rest⟩
  · simp [find_sub]
  rcases t with _ | es2
  · rw [show find_sub good base ((a, FSTree.file) :: rest) = find_sub good base rest from by
      simp [find_sub]]
    rw [mem_find_sub good base rest p]
    constructor
    · rintro ⟨n, es2, q, t, hmem, hf, hp, hg⟩
      exact ⟨n, es2, q, t, List.mem_cons_of_mem _ hmem, hf, hp, hg⟩
    · rintro ⟨n, es2, q, t, hmem, hf, hp, hg⟩
      rcases List.mem_cons.mp hmem with heq | hmem'
      · simp at heq
      · exact ⟨n, es2, q, t, hmem', hf, hp, hg⟩
  · rw [show find_sub good base ((a, FSTree.dir es2) :: rest) =
        ((es2.filter (fun e => good (base ++ [a] ++ [e.1]) e.2)).map
            (fun e => base ++ [a] ++ [e.1])
          ++ find_sub good (base ++ [a]) es2)
          ++ find_sub good base rest from by simp [find_sub]]
    simp only [List.mem_append]
    rw [mem_find_sub good (base ++ [a]) es2 p, mem_find_sub good base rest p]
    constructor
    · rintro ((hA | hB) | hC)
      · simp only [List.mem_map, List.mem_filter] at hA
        rcases hA with ⟨e, ⟨hmem, hg⟩, rfl⟩
        refine ⟨a, es2, [e.1], e.2, List.mem_cons_self _ _, Finds.here ?_, by simp, hg⟩
        exact hmem
      · rcases hB with ⟨n2, es3, q, t, hmem, hf, rfl, hg⟩
        exact ⟨a, es2, n2 :: q, t, List.mem_cons_self _ _, Finds.deeper hmem hf, by simp, hg⟩
      · rcases hC with ⟨n, es3, q, t, hmem, hf, rfl, hg⟩
        exact ⟨n, es3, q, t, List.mem_cons_of_mem _ hmem, hf, rfl, hg⟩
    · rintro ⟨n, es2', q, t, hmem, hf, rfl, hg⟩
      rcases List.mem_cons.mp hmem with heq | hmem'
      · have hn : n = a := congrArg Prod.fst heq
        have hes : es2' = es2 := by
          have := congrArg Prod.snd heq
          simpa using this
        subst hn
        subst hes
        rcases finds_cases hf with ⟨n1, rfl, hm1⟩ | ⟨n2, es3, q', rfl, hm2, hf'⟩
        · left; left
          simp only [List.mem_map, List.mem_filter]
          exact ⟨(n1, t), ⟨hm1, by simpa using hg⟩, by simp⟩
        · left; right
          exact ⟨n2, es3, q', t, hm2, hf', by simp, hg⟩
      · right
        exact ⟨n, es2', q, t, hmem', hf, rfl, hg⟩
termination_by sizeOf es

/-- Membership in the walk: exactly the good nodes reachable below
`base`. -/
theorem mem_find_files (good : FsPath → FSTree → Bool) (base : FsPath)
    (es : List (String × FSTree)) (p : FsPath) :
    p ∈ find_files good base es ↔
      ∃ q t, Finds es q t ∧ p = base ++ q ∧ good p t = true := by
  unfold find_files
  simp only [List.mem_append, List.mem_map, List.mem_filter]
  rw [mem_find_sub]
  constructor
  · rintro (⟨e, ⟨hmem, hg⟩, rfl⟩ | ⟨n, es2, q, t, hmem, hf, rfl, hg⟩)
    · exact ⟨[e.1], e.2, Finds.here hmem, rfl, hg⟩
    · exact ⟨n :: q, t, Finds.deeper hmem hf, rfl, hg⟩
  · rintro ⟨q, t, hf, rfl, hg⟩
    rcases finds_cases hf with ⟨n, rfl, hm⟩ | ⟨n, es2, q', rfl, hm, hf'⟩
    · exact Or.inl ⟨(n, t), ⟨hm, hg⟩, rfl⟩
    · exact Or.inr ⟨n, es2, q', t, hm, hf', rfl, hg⟩

/-- In a well-formed directory the entry names are distinct. -/
theorem wf_names (es : List (String × FSTree)) (h : wfEntries es = true) :
    (es.map Prod.fst).Nodup := by
  induction es with
  | nil => simp
  | cons a rest ih =>
    rcases a with ⟨n, t⟩
    rcases t with _ | es2
    · simp only [wfEntries, Bool.and_eq_true, Bool.not_eq_true',
        decide_eq_false_iff_not] at h
      refine List.nodup_cons.mpr ⟨?_, ih h.2⟩
      simpa using h.1
    · simp only [wfEntries, Bool.and_eq_true, Bool.not_eq_true',
        decide_eq_false_iff_not] at h
      refine List.nodup_cons.mpr ⟨?_, ih h.2⟩
      simpa using h.1.1

/-- The `listdir`-filter part of the walk yields distinct paths when the
entry names are distinct. -/
theorem nodup_filtered_map (good : FsPath → FSTree → Bool) (base : FsPath)
    (es : List (String × FSTree)) (h : (es.map Prod.fst).Nodup) :
    ((es.filter (fun e => good (base ++ [e.1]) e.2)).map (fun e => base ++ [e.1])).Nodup := by
  rw [List.Nodup, List.pairwise_map] at h ⊢
  have h' : es.Pairwise (fun e1 e2 => base ++ [e1.1] ≠ base ++ [e2.1]) :=
    h.imp (fun hne heq => hne (by simpa using List.append_cancel_left heq))
  exact h'.sublist (List.filter_sublist es)

/-- Every path produced by the recursive-descent part is at least two
components below `base` and starts with an entry name. -/
theorem mem_find_sub_shape (good : FsPath → FSTree → Bool) (base : FsPath)
    (es : List (String × FSTree)) (p : FsPath) (h : p ∈ find_sub good base es) :
    base.length + 2 ≤ p.length ∧
      ∃ n u, p = base ++ n :: u ∧ n ∈ es.map Prod.fst := by
  rcases (mem_find_sub good base es p).mp h with ⟨n, es2, q, t, hmem, hf, rfl, _⟩
  rcases finds_head_name hf with ⟨n2, q', rfl, _⟩
  constructor
  · simp [List.length_append]
  · exact ⟨n, n2 :: q', rfl, List.mem_map.mpr ⟨_, hmem, rfl⟩⟩

/-- The recursive-descent part of the walk yields distinct paths on a
well-formed directory snapshot. -/
theorem find_sub_nodup (good : FsPath → FSTree → Bool) (base : FsPath)
    (es : List (String × FSTree)) :
    wfEntries es = true → (find_sub good base es).Nodup := by
  induction base, es using find_sub.induct good with
  | case1 x => intro _; simp [find_sub]
  | case2 base a rest ih =>
    intro h
    rw [show find_sub good base ((a, FSTree.file) :: rest) = find_sub good base rest from by
      simp [find_sub]]
    simp only [wfEntries, Bool.and_eq_true] at h
    exact ih h.2
  | case3 base a es2 rest ih1 ih2 =>
    intro h
    rw [show find_sub good base ((a, FSTree.dir es2) :: rest) =
        ((es2.filter (fun e => good (base ++ [a] ++ [e.1]) e.2)).map
            (fun e => base ++ [a] ++ [e.1])
          ++ find_sub good (base ++ [a]) es2)
          ++ find_sub good base rest from by simp [find_sub]]
    simp only [wfEntries, Bool.and_eq_true, Bool.not_eq_true',
      decide_eq_false_iff_not] at h
    rcases h with ⟨⟨hna, hwf2⟩, hwfr⟩
    have hAnodup := nodup_filtered_map good (base ++ [a]) es2 (wf_names es2 hwf2)
    have hBnodup := ih1 hwf2
    have hCnodup := ih2 hwfr
    have hAB : ((es2.filter (fun e => good (base ++ [a] ++ [e.1]) e.2)).map
        (fun e => base ++ [a] ++ [e.1]) ++ find_sub good (base ++ [a]) es2).Nodup := by
      rw [List.nodup_append]
      refine ⟨hAnodup, hBnodup, ?_⟩
      intro p hpA hpB
      have hlenA : p.length = base.length + 2 := by
        rcases List.mem_map.mp hpA with ⟨e, _, rfl⟩
        simp [List.length_append]
      have hlenB := (mem_find_sub_shape good (base ++ [a]) es2 p hpB).1
      simp [List.length_append] at hlenB
      omega
    rw [List.nodup_append]
    refine ⟨hAB, hCnodup, ?_⟩
    intro p hpAB hpC
    have hpa : ∃ u, p = base ++ a :: u := by
      rcases List.mem_append.mp hpAB with hpA | hpB
      · rcases List.mem_map.mp hpA with ⟨e, _, rfl⟩
        exact ⟨[e.1], by simp⟩
      · rcases (mem_find_sub_shape good (base ++ [a]) es2 p hpB).2 with ⟨n, u, rfl, _⟩
        exact ⟨n :: u, by simp⟩
    rcases hpa with ⟨u, rfl⟩
    rcases (mem_find_sub_shape good base rest _ hpC).2 with ⟨n', u', heq, hn'⟩
    have hcons : a :: u = n' :: u' := List.append_cancel_left heq
    have han : a = n' := by injection hcons
    rw [← han] at hn'
    exact hna hn'

/-- Discovery on a well-formed snapshot yields distinct paths. -/
theorem find_files_nodup (good : FsPath → FSTree → Bool) (base : FsPath)
    (es : List (String × FSTree)) (h : wfEntries es = true) :
    (find_files good base es).Nodup := by
  unfold find_files
  rw [List.nodup_append]
  refine ⟨nodup_filtered_map good base es (wf_names es h), find_sub_nodup good base es h, ?_⟩
  intro p hpA hpB
  have hlenA : p.length = base.length + 1 := by
    rcases List.mem_map.mp hpA with ⟨e, _, rfl⟩
    simp [List.length_append]
  have hlenB := (mem_find_sub_shape good base es p hpB).1
  omega

/-- C4 (amended): on a well-formed directory snapshot, discovery returns a
duplicate-free list containing exactly the regular files found recursively
whose extension is a case-sensitive member of the allow-list AND which the
classifier does not mark as already compressed (no directories are
returned).  The claim as frozen omits the classifier conjunct: the
classification heuristics are applied during discovery itself. -/
theorem discovery_characterization (c : FsPath → Bool) (root : FsPath)
    (es : List (String × FSTree)) (h : wfEntries es = true) :
    (find_all_non_compressed_video root (FSTree.dir es) c).Nodup ∧
      ∀ p, p ∈ find_all_non_compressed_video root (FSTree.dir es) c ↔
        ∃ q, Finds es q FSTree.file ∧ p = root ++ q ∧
          hasAllowedExt p = true ∧ c p = false := by
  constructor
  · exact find_files_nodup _ root es h
  · intro p
    rw [show find_all_non_compressed_video root (FSTree.dir es) c =
        find_files (is_suitable_for_compression c) root es from rfl]
    rw [mem_find_files]
    constructor
    · rintro ⟨q, t, hf, rfl, hg⟩
      simp only [is_suitable_for_compression, Bool.and_eq_true, Bool.not_eq_true'] at hg
      rcases t with _ | es2
      · exact ⟨q, hf, rfl, hg.1.1, hg.2⟩
      · exact absurd hg.1.2 (by simp [isFileNode])
    · rintro ⟨q, hf, rfl, hExt, hc⟩
      exact ⟨q, FSTree.file, hf, rfl, by
        simp [is_suitable_for_compression, hExt, hc, isFileNode]⟩

/-- C4 witness: a snapshot with an allowed-extension file at the root, a
subdirectory holding another, and a disallowed `.txt` file, with a
classifier that marks nothing as compressed. -/
theorem discovery_characterization_witness :
    wfEntries [("a.mp4", FSTree.file),
        ("sub", FSTree.dir [("b.mov", FSTree.file)]), ("c.txt", FSTree.file)] = true ∧
      ((find_all_non_compressed_video []
          (FSTree.dir [("a.mp4", FSTree.file),
            ("sub", FSTree.dir [("b.mov", FSTree.file)]), ("c.txt", FSTree.file)])
          (fun _ => false)).Nodup ∧
        ∀ p, p ∈ find_all_non_compressed_video []
            (FSTree.dir [("a.mp4", FSTree.file),
              ("sub", FSTree.dir [("b.mov", FSTree.file)]), ("c.txt", FSTree.file)])
            (fun _ => false) ↔
          ∃ q, Finds [("a.mp4", FSTree.file),
              ("sub", FSTree.dir [("b.mov", FSTree.file)]), ("c.txt", FSTree.file)]
              q FSTree.file ∧ p = [] ++ q ∧
            hasAllowedExt p = true ∧ (fun _ : FsPath => false) p = false) :=
  ⟨by simp [wfEntries],
    discovery_characterization (fun _ => false) []
      [("a.mp4", FSTree.file), ("sub", FSTree.dir [("b.mov", FSTree.file)]),
        ("c.txt", FSTree.file)] (by simp [wfEntries])⟩

/-- C4 counterexample: with a classifier that marks the single `.mp4`
regular file as already compressed (as when the probe reports an x265
encoder tag), discovery returns the empty list even though the tree
contains a regular file with an allowed extension — so discovery does not
return exactly the set of extension-matching regular files. -/
theorem discovery_excludes_compressed_file :
    find_all_non_compressed_video [] (FSTree.dir [("a.mp4", FSTree.file)])
        (fun _ => true) = [] ∧
      Finds [("a.mp4", FSTree.file)] ["a.mp4"] FSTree.file ∧
      hasAllowedExt ["a.mp4"] = true := by
  refine ⟨?_, Finds.here (by simp), by decide⟩
  simp [find_all_non_compressed_video, find_files, find_sub, is_suitable_for_compression]
